import Mathlib

/-!
Verification of the translation orchestration core of the Translation-Platform
repository (backend/app/services/translation_service.py,
backend/app/services/file_service.py, backend/app/utils/text_analyzer.py).

The Python code is shallowly embedded: strings are Lean `String`s (Python
`len` counts code points, as does `String.length`), numeric scores are
modelled over `ℚ` (all score arithmetic in the source is elementary), Python
exceptions become `Except`, and the provider adapters' network calls are
abstracted as oracle functions passed in as parameters.
-/

namespace TransPlatform

/-! ### Python string primitives

`pyIsSpace` models the whitespace class used both by `str.strip()` and by the
`\s` regex class, restricted to its ASCII core (space, tab, newline, carriage
return, vertical tab, form feed). -/

def pyIsSpace (c : Char) : Bool :=
  c == ' ' || c == '\t' || c == '\n' || c == '\r' || c == '\x0b' || c == '\x0c'

/-- Leading-whitespace removal on character lists. -/
def dropLeadingWs (l : List Char) : List Char := l.dropWhile pyIsSpace

/-- Trailing-whitespace removal on character lists. -/
def dropTrailingWs (l : List Char) : List Char := l.rdropWhile pyIsSpace

/-- Python `str.strip()`: remove leading and trailing whitespace. -/
def stripChars (l : List Char) : List Char := dropLeadingWs (dropTrailingWs l)

/-- Python `str.strip()` on `String`. -/
def pyStrip (s : String) : String := String.mk (stripChars s.toList)

/-! ### Translation results and best-result selection
(`translation_service.py`) -/

/-- The fields of an engine's result dict that the orchestration logic reads.
(`engine`, `translated_text`, `quality_score` keys of the dicts built by the
engines' `translate` methods.) -/
structure TransResult where
  engine : String
  translated_text : String
  quality_score : ℚ
deriving DecidableEq

/-- The loop of `TranslationService._select_best_translation`: iterate over the
`results` items in insertion order, keeping `best_result`/`best_score`, and
replace them only when a strictly larger `quality_score` is seen
(`if score > best_score`), starting from `best_result = None`, `best_score = 0`. -/
def selectBestGo : List (String × TransResult) → Option TransResult → ℚ → Option TransResult
  | [], best_result, _ => best_result
  | (_, result) :: rest, best_result, best_score =>
    if best_score < result.quality_score then
      selectBestGo rest (some result) result.quality_score
    else
      selectBestGo rest best_result best_score

/-- `TranslationService._select_best_translation` (translation_service.py:482-497).
`results` is the insertion-ordered association list modelling the Python dict. -/
def _select_best_translation (results : List (String × TransResult)) : Option TransResult :=
  if results = [] then none else selectBestGo results none 0

/-! ### The orchestrator (`TranslationService`) -/

/-- A provider adapter's `translate(text, source_lang, target_lang)` call,
abstracted as an oracle: it either returns a result dict or raises (the
network call and response parsing are external I/O). -/
def Behavior : Type := String → String → String → Except String TransResult

/-- The error outcomes of `TranslationService.translate`:
`ValueError` for validation, the bare `Exception("没有可用的翻译引擎")` when no
engine is configured, and a propagated engine exception otherwise. -/
inductive TransError where
  | validation (msg : String)
  | noProvider
  | providerError (msg : String)
deriving DecidableEq

/-- Whether a `translate` outcome is a validation failure (`ValueError`). -/
def isValidationError : Except TransError TransResult → Bool
  | .error (.validation _) => true
  | _ => false

/-- Propagate an engine call's outcome through `TranslationService.translate`:
a raised engine exception propagates as-is (modelled as `providerError`). -/
def liftEngineResult : Except String TransResult → Except TransError TransResult
  | .ok r => .ok r
  | .error m => .error (.providerError m)

/-- `settings.MAX_TRANSLATION_LENGTH` (core/config.py). -/
def MAX_TRANSLATION_LENGTH : Nat := 10000

/-- `TranslationService.translate` (translation_service.py:411-437).
`engines` is the insertion-ordered `self.engines` mapping (provider id to
adapter behavior); `detect` abstracts `detect_language`. -/
def TranslationService.translate (engines : List (String × Behavior))
    (detect : String → String)
    (text : String) (source_lang : String) (target_lang : String)
    (engine : String) : Except TransError TransResult :=
  if pyStrip text = "" then
    .error (.validation "翻译文本不能为空")
  else if text.length > MAX_TRANSLATION_LENGTH then
    .error (.validation "文本长度超过限制(10000字符)")
  else
    let sl := if source_lang = "auto" then detect text else source_lang
    match List.lookup engine engines with
    | some b => liftEngineResult (b text sl target_lang)
    | none =>
      match engines with
      | [] => .error .noProvider
      | (_, b) :: _ => liftEngineResult (b text sl target_lang)

/-- The dict returned by `TranslationService.compare_translations`. -/
structure CompareOut where
  source_text : String
  source_language : String
  target_language : String
  results : List (String × TransResult)
  errors : List (String × String)
  best_translation : Option TransResult
deriving DecidableEq

/-- The task-building loop of `compare_translations`
(translation_service.py:455-459): for each requested engine configured in the
mapping, pair its id with the outcome of its `translate` call; unconfigured
ids are skipped. -/
def compare_tasks (engines : List (String × Behavior))
    (text sl tl : String) (engs : List String) : List (String × Except String TransResult) :=
  engs.filterMap fun e => (List.lookup e engines).map fun b => (e, b text sl tl)

/-- The `results` dict of `compare_translations` (translation_service.py:465-468):
the successful tasks, keyed by engine, in task order. -/
def compare_results (tasks : List (String × Except String TransResult)) :
    List (String × TransResult) :=
  tasks.filterMap fun p =>
    match p.2 with
    | .ok r => some (p.1, r)
    | .error _ => none

/-- The `errors` dict of `compare_translations` (translation_service.py:469-471):
the failed tasks' error messages, keyed by engine, in task order. -/
def compare_errors (tasks : List (String × Except String TransResult)) :
    List (String × String) :=
  tasks.filterMap fun p =>
    match p.2 with
    | .ok _ => none
    | .error m => some (p.1, m)

/-- `TranslationService.compare_translations` (translation_service.py:439-480).
`requested = none` models the `engines=None` default (all configured engines). -/
def compare_translations (engines : List (String × Behavior))
    (detect : String → String)
    (text : String) (source_lang : String) (target_lang : String)
    (requested : Option (List String)) : CompareOut :=
  let engs := requested.getD (engines.map Prod.fst)
  let sl := if source_lang = "auto" then detect text else source_lang
  let tasks := compare_tasks engines text sl target_lang engs
  { source_text := text
    source_language := sl
    target_language := target_lang
    results := compare_results tasks
    errors := compare_errors tasks
    best_translation := _select_best_translation (compare_results tasks) }

/-! ### Cache keys (`TranslationEngine._get_cache_key`) -/

/-- One `"key": value` fragment of `json.dumps`; option values are modelled as
already-serialized JSON fragments. -/
def jsonPair (p : String × String) : String := "\"" ++ p.1 ++ "\": " ++ p.2

/-- `json.dumps(kwargs, sort_keys=True)`: serialize the keyword arguments in
sorted key order. Sorting is modelled with insertion sort on the keys. -/
def json_dumps_sorted (kwargs : List (String × String)) : String :=
  "\x7b" ++ String.intercalate ", " ((kwargs.insertionSort fun a b => a.1 ≤ b.1).map jsonPair) ++ "\x7d"

/-- `TranslationEngine._get_cache_key` (translation_service.py:38-41).
`md5hex` abstracts `hashlib.md5(...).hexdigest()` (a fixed function of the
content string). -/
def _get_cache_key (md5hex : String → String) (name : String)
    (text : String) (source_lang : String) (target_lang : String)
    (kwargs : List (String × String)) : String :=
  let content := text ++ ":" ++ source_lang ++ ":" ++ target_lang ++ ":" ++ name ++ ":"
    ++ json_dumps_sorted kwargs
  "translation:" ++ md5hex content

/-! ### Quality scoring (`text_analyzer.py`) -/

/-- The `expected_ratios` table of `_analyze_length_ratio`
(text_analyzer.py:70-77). -/
def expected_ratios : List ((String × String) × (ℚ × ℚ)) :=
  [ (("en", "zh"), (0.4, 0.8))
  , (("zh", "en"), (1.2, 2.5))
  , (("ja", "zh"), (0.6, 1.2))
  , (("ko", "zh"), (0.6, 1.2))
  , (("fr", "en"), (0.8, 1.3))
  , (("de", "en"), (0.7, 1.2)) ]

/-- `_analyze_length_ratio` (text_analyzer.py:56-89): score the plausibility of
`len(translated)/len(source)` against the expected range for the language
pair, defaulting to `(0.5, 2.0)`. -/
def _analyze_length_ratio (source_text translated_text source_lang target_lang : String) : ℚ :=
  if source_text = "" ∨ translated_text = "" then 0
  else
    let source_len : ℚ := source_text.length
    let translated_len : ℚ := translated_text.length
    let r := translated_len / source_len
    let bounds := (List.lookup (source_lang, target_lang) expected_ratios).getD (0.5, 2.0)
    let rmin := bounds.1
    let rmax := bounds.2
    if rmin ≤ r ∧ r ≤ rmax then 100.0
    else if r < rmin then max 0.0 (100.0 * (r / rmin))
    else max 0.0 (100.0 * (rmax / r))

/-- The weighted combination and final clamp of `analyze_text_quality`
(text_analyzer.py:27-50): five sub-scores weighted 0.2/0.25/0.25/0.15/0.15,
the sum clamped into [0, 100] by `min(100.0, max(0.0, score))`. -/
def analyze_text_quality_score (length_score completeness_score fluency_score
    format_score special_char_score : ℚ) : ℚ :=
  let score := length_score * 0.2 + completeness_score * 0.25 + fluency_score * 0.25
    + format_score * 0.15 + special_char_score * 0.15
  min 100.0 (max 0.0 score)

/-- `analyze_text_quality` (text_analyzer.py:9-54). The length sub-score is the
embedded `_analyze_length_ratio`; the other four heuristic sub-analyzers
(completeness, fluency, format preservation, special characters) are taken as
parameters: the claims proved about this function are independent of their
values thanks to the final clamp, so they are universally quantified over. -/
def analyze_text_quality (source_text translated_text source_lang target_lang : String)
    (completeness_score fluency_score format_score special_char_score : ℚ) : ℚ :=
  analyze_text_quality_score
    ( _analyze_length_ratio source_text translated_text source_lang target_lang)
    completeness_score fluency_score format_score special_char_score

/-- The `try`/`except` shell of `analyze_text_quality`: the computed score is
returned from the `try` body, and any exception raised during the analysis is
caught and replaced by the neutral default `75.0` (text_analyzer.py:52-54). -/
def analyze_text_quality_attempt : Except String ℚ → ℚ
  | .ok score => score
  | .error _ => 75.0

/-! ### Document pipeline (`file_service.py`) -/

/-- The sentence-terminal character class `[.!?。！？]` used by
`re.split` in `split_text_into_chunks`. -/
def isTermChar (c : Char) : Bool :=
  c == '.' || c == '!' || c == '?' || c == '。' || c == '！' || c == '？'

/-- `re.split(r'[.!?。！？]\s*', text)`: scan the text, cutting at each
terminal character and consuming the whitespace that follows it. `acc` holds
the current (reversed) sentence fragment. -/
def splitSentencesAux : List Char → List Char → List (List Char)
  | [], acc => [acc.reverse]
  | c :: rest, acc =>
    if isTermChar c then
      acc.reverse :: splitSentencesAux (rest.dropWhile pyIsSpace) []
    else
      splitSentencesAux rest (c :: acc)
termination_by l _ => l.length
decreasing_by
  · simp only [List.length_cons]
    exact Nat.lt_succ_of_le (List.dropWhile_sublist _).length_le
  · simp

/-- Sentence splitting of a text, as in `split_text_into_chunks`. -/
def splitSentences (l : List Char) : List (List Char) := splitSentencesAux l []

/-- The sentence-accumulation loop of `split_text_into_chunks`
(file_service.py:107-123): skip blank sentences; close the current chunk when
adding the sentence would exceed the budget and the chunk is non-empty;
otherwise append the sentence, joined with `". "`; finally flush the last
chunk when its stripped form is non-empty. -/
def buildChunks (chunk_size : Nat) : List (List Char) → List Char → List (List Char)
  | [], current_chunk =>
    if stripChars current_chunk = [] then [] else [stripChars current_chunk]
  | sentence :: rest, current_chunk =>
    if stripChars sentence = [] then
      buildChunks chunk_size rest current_chunk
    else if current_chunk.length + sentence.length > chunk_size ∧ current_chunk ≠ [] then
      stripChars current_chunk :: buildChunks chunk_size rest sentence
    else
      buildChunks chunk_size rest
        (if current_chunk = [] then sentence else current_chunk ++ '.' :: ' ' :: sentence)

/-- `FileService.split_text_into_chunks` (file_service.py:95-125). A text whose
length is within the budget is returned as a single chunk; otherwise the text
is split into sentences which are greedily accumulated into chunks. -/
def split_text_into_chunks (text : String) (chunk_size : Nat) : List String :=
  if text.length ≤ chunk_size then [text]
  else (buildChunks chunk_size (splitSentences text.toList) []).map String.mk

/-- A persisted `FileChunk` row as mutated by `translate_file_async`
(models/file.py): its index, source text, optional translated text and status. -/
structure ChunkRecord where
  chunk_index : Nat
  chunk_text : String
  translated_text : Option String
  status : String
deriving DecidableEq

/-- The observable final state of a `File` job record together with its chunk
rows, as left by `translate_file_async`. -/
structure FileJobState where
  translation_status : String
  translation_progress : Int
  translated_content : Option String
  chunks : List ChunkRecord
deriving DecidableEq

/-- One iteration of the per-chunk loop of `translate_file_async`
(file_service.py:174-219): on success the chunk row gets the translated text
and status `completed`; on failure the row's status becomes `failed` (its
`translated_text` column is not assigned) and the chunk's own source text is
appended to the in-memory `translated_chunks` list instead. -/
def translateChunkStep (oracle : Nat → String → Except String String)
    (i : Nat) (chunk_text : String) : ChunkRecord × String :=
  match oracle i chunk_text with
  | .ok translated =>
    ({ chunk_index := i, chunk_text := chunk_text
       translated_text := some translated, status := "completed" }, translated)
  | .error _ =>
    ({ chunk_index := i, chunk_text := chunk_text
       translated_text := none, status := "failed" }, chunk_text)

/-- `FileService.translate_file_async` from the point where the extracted text
is available (file_service.py:156-239): split into chunks, translate each chunk
through the orchestrator (abstracted as `oracle`, indexed by chunk position),
join the per-chunk outputs with newlines, and mark the job `completed` with
progress 100. Database commits and output-file generation are external I/O and
assumed to succeed. -/
def translate_file_async (extracted_text : String)
    (oracle : Nat → String → Except String String)
    (chunk_size : Nat) : FileJobState :=
  let chunks := split_text_into_chunks extracted_text chunk_size
  let steps := chunks.enum.map fun p => translateChunkStep oracle p.1 p.2
  let translated_chunks := steps.map Prod.snd
  let full_translated_text := String.intercalate "\n" translated_chunks
  { translation_status := "completed"
    translation_progress := 100
    translated_content := some full_translated_text
    chunks := steps.map Prod.fst }

/-! ## Shared helper lemmas -/

/-- A successful association-list lookup means the key is among the mapped keys. -/
theorem lookup_some_mem_keys {β : Type} {e : String} {l : List (String × β)} {b : β}
    (h : List.lookup e l = some b) : e ∈ l.map Prod.fst := by
  induction l with
  | nil => simp [List.lookup] at h
  | cons p rest ih =>
    rw [List.lookup_cons] at h
    by_cases hek : e == p.1
    · simp only [List.map_cons, List.mem_cons]
      exact Or.inl (eq_of_beq hek)
    · simp only [hek] at h
      exact List.mem_cons_of_mem _ (ih h)

/-- A key absent from the mapped keys looks up to `none`. -/
theorem lookup_eq_none_of_not_mem {β : Type} {e : String} {l : List (String × β)}
    (h : e ∉ l.map Prod.fst) : List.lookup e l = none := by
  cases hl : List.lookup e l with
  | none => rfl
  | some b => exact absurd (lookup_some_mem_keys hl) h

/-- If every element maps to `some`, `filterMap` preserves the length. -/
theorem length_filterMap_of_all_some {α β : Type} {g : α → Option β} {l : List α}
    (h : ∀ a ∈ l, (g a).isSome) : (l.filterMap g).length = l.length := by
  induction l with
  | nil => rfl
  | cons a t ih =>
    rcases ho : g a with _ | b
    · exact absurd (ho ▸ h a (List.mem_cons_self a t)) (by simp)
    · simp only [List.filterMap_cons, ho, List.length_cons]
      exact congrArg Nat.succ (ih fun x hx => h x (List.mem_cons_of_mem a hx))

/-- Full characterization of the best-result loop: starting from candidate `b`
at threshold `s`, either nothing beats `s` and the candidate is returned
unchanged, or the returned result sits at the first index whose score strictly
exceeds every earlier score (and `s`), and weakly dominates the whole list. -/
theorem selectBestGo_spec (l : List (String × TransResult)) :
    ∀ (b : Option TransResult) (s : ℚ),
    (selectBestGo l b s = b ∧ ∀ p ∈ l, p.2.quality_score ≤ s)
    ∨ ∃ (i : Nat) (e : String × TransResult), l[i]? = some e
        ∧ selectBestGo l b s = some e.2 ∧ s < e.2.quality_score
        ∧ (∀ (j : Nat) (e' : String × TransResult), j < i → l[j]? = some e' →
            e'.2.quality_score < e.2.quality_score)
        ∧ (∀ (j : Nat) (e' : String × TransResult), l[j]? = some e' →
            e'.2.quality_score ≤ e.2.quality_score) := by
  induction l with
  | nil => exact fun b s => Or.inl ⟨rfl, by simp⟩
  | cons p rest ih =>
    intro b s
    by_cases h : s < p.2.quality_score
    · rcases ih (some p.2) p.2.quality_score with ⟨heq, hall⟩ | ⟨i, e, hget, hres, hs, hprev, hub⟩
      · refine Or.inr ⟨0, p, by simp, ?_, h, ?_, ?_⟩
        · simpa [selectBestGo, h] using heq
        · exact fun j e' hj _ => absurd hj (Nat.not_lt_zero j)
        · intro j e' hj
          match j, hj with
          | 0, hj => simp only [List.getElem?_cons_zero, Option.some_inj] at hj; exact hj ▸ le_refl _
          | j + 1, hj =>
            rw [List.getElem?_cons_succ] at hj
            exact hall e' (List.mem_iff_getElem?.mpr ⟨j, hj⟩)
      · refine Or.inr ⟨i + 1, e, by simpa using hget, ?_, lt_trans h hs, ?_, ?_⟩
        · simpa [selectBestGo, h] using hres
        · intro j e' hj hj'
          match j, hj, hj' with
          | 0, _, hj' => simp only [List.getElem?_cons_zero, Option.some_inj] at hj'; exact hj' ▸ hs
          | j + 1, hj, hj' =>
            rw [List.getElem?_cons_succ] at hj'
            exact hprev j e' (Nat.lt_of_succ_lt_succ hj) hj'
        · intro j e' hj
          match j, hj with
          | 0, hj => simp only [List.getElem?_cons_zero, Option.some_inj] at hj; exact hj ▸ le_of_lt hs
          | j + 1, hj => rw [List.getElem?_cons_succ] at hj; exact hub j e' hj
    · rcases ih b s with ⟨heq, hall⟩ | ⟨i, e, hget, hres, hs, hprev, hub⟩
      · refine Or.inl ⟨by simpa [selectBestGo, h] using heq, ?_⟩
        intro q hq
        rcases List.mem_cons.mp hq with hq | hq
        · exact hq ▸ le_of_not_lt h
        · exact hall q hq
      · refine Or.inr ⟨i + 1, e, by simpa using hget, ?_, hs, ?_, ?_⟩
        · simpa [selectBestGo, h] using hres
        · intro j e' hj hj'
          match j, hj, hj' with
          | 0, _, hj' =>
            simp only [List.getElem?_cons_zero, Option.some_inj] at hj'
            exact hj' ▸ lt_of_le_of_lt (le_of_not_lt h) hs
          | j + 1, hj, hj' =>
            rw [List.getElem?_cons_succ] at hj'
            exact hprev j e' (Nat.lt_of_succ_lt_succ hj) hj'
        · intro j e' hj
          match j, hj with
          | 0, hj =>
            simp only [List.getElem?_cons_zero, Option.some_inj] at hj
            exact hj ▸ le_of_lt (lt_of_le_of_lt (le_of_not_lt h) hs)
          | j + 1, hj => rw [List.getElem?_cons_succ] at hj; exact hub j e' hj

/-- If some collected result has a positive quality score, a best result is
selected. -/
theorem select_best_isSome_of_pos {results : List (String × TransResult)}
    (h : ∃ p ∈ results, 0 < p.2.quality_score) :
    ∃ b, _select_best_translation results = some b := by
  obtain ⟨p, hmem, hpos⟩ := h
  have hne : results ≠ [] := by rintro rfl; exact absurd hmem (List.not_mem_nil p)
  unfold _select_best_translation
  rw [if_neg hne]
  rcases selectBestGo_spec results none 0 with ⟨_, hall⟩ | ⟨_, e, _, hres, _⟩
  · exact absurd (lt_of_lt_of_le hpos (hall p hmem)) (lt_irrefl 0)
  · exact ⟨e.2, hres⟩

/-- `isValidationError` never holds for an outcome propagated from an engine
call. -/
theorem isValidationError_liftEngineResult (x : Except String TransResult) :
    isValidationError (liftEngineResult x) = false := by
  cases x <;> rfl

/-! ## Claims -/

/-- C1 counterexample: a non-empty `results` map whose only entry has
`quality_score = 0` yields `best = None` (the loop starts from
`best_score = 0` and only replaces on a strictly larger score), so `best` is
not an entry of this non-empty `results` map, contrary to the claim. -/
theorem claim_C1_counterexample :
    _select_best_translation [("a", (⟨"a", "t", 0⟩ : TransResult))] = none
    ∧ ([("a", (⟨"a", "t", 0⟩ : TransResult))] : List (String × TransResult)) ≠ [] := by
  decide

/-- C1 (amended): `best` is `None` when `results` is empty, and also when no
entry has a strictly positive `quality_score`; whenever `best` is selected it
is one of the values in `results`, has positive score, weakly dominates every
entry's score, and sits at the first index whose score strictly exceeds all
earlier scores (ties keep the first-seen winner); and `best` is selected
whenever some entry has a strictly positive score. -/
theorem claim_C1_select_best (results : List (String × TransResult)) :
    (results = [] → _select_best_translation results = none)
    ∧ ((∀ p ∈ results, p.2.quality_score ≤ 0) → _select_best_translation results = none)
    ∧ (∀ r : TransResult, _select_best_translation results = some r →
        r ∈ results.map Prod.snd ∧ 0 < r.quality_score
        ∧ (∀ p ∈ results, p.2.quality_score ≤ r.quality_score)
        ∧ ∃ (i : Nat) (e : String × TransResult), results[i]? = some e ∧ e.2 = r
            ∧ ∀ (j : Nat) (e' : String × TransResult), j < i → results[j]? = some e' →
                e'.2.quality_score < r.quality_score)
    ∧ ((∃ p ∈ results, 0 < p.2.quality_score) →
        ∃ r : TransResult, _select_best_translation results = some r) := by
  refine ⟨?_, ?_, ?_, fun h => select_best_isSome_of_pos h⟩
  · intro h; rw [h]; rfl
  · intro hall
    by_cases hne : results = []
    · rw [hne]; rfl
    · unfold _select_best_translation
      rw [if_neg hne]
      rcases selectBestGo_spec results none 0 with ⟨heq, _⟩ | ⟨i, e, hget, _, hs, _, _⟩
      · exact heq
      · have hle := hall e (List.mem_iff_getElem?.mpr ⟨i, hget⟩)
        exact absurd (lt_of_lt_of_le hs hle) (lt_irrefl 0)
  · intro r hr
    have hne : results ≠ [] := by
      rintro rfl
      simp [ _select_best_translation] at hr
    unfold _select_best_translation at hr
    rw [if_neg hne] at hr
    rcases selectBestGo_spec results none 0 with ⟨heq, _⟩ | ⟨i, e, hget, hres, hs, hprev, hub⟩
    · rw [heq] at hr; exact absurd hr (by simp)
    · rw [hres] at hr
      have he : e.2 = r := Option.some.inj hr
      refine ⟨he ▸ List.mem_map_of_mem Prod.snd (List.mem_iff_getElem?.mpr ⟨i, hget⟩),
        he ▸ hs, ?_, ⟨i, e, hget, he, fun j e' hj hj' => he ▸ hprev j e' hj hj'⟩⟩
      intro p hp
      obtain ⟨j, hj⟩ := List.mem_iff_getElem?.mp hp
      exact he ▸ hub j p hj

/-- C1 witness: on a concrete two-entry `results` map the selected best is a
value of the map. -/
theorem claim_C1_witness :
    (⟨"b", "tb", 50⟩ : TransResult)
      ∈ ([("a", (⟨"a", "ta", 10⟩ : TransResult)), ("b", ⟨"b", "tb", 50⟩)]).map Prod.snd :=
  ((claim_C1_select_best _).2.2.1 ⟨"b", "tb", 50⟩ (by decide)).1

/-- C4: the composite quality score always lies in [0, 100] (for every input
pair and every value of the abstracted sub-scores, thanks to the final clamp),
and the `except` branch of `analyze_text_quality` returns exactly 75.0. -/
theorem claim_C4_quality_bounds :
    (∀ (source_text translated_text source_lang target_lang : String)
       (completeness_score fluency_score format_score special_char_score : ℚ),
       0 ≤ analyze_text_quality source_text translated_text source_lang target_lang
             completeness_score fluency_score format_score special_char_score
       ∧ analyze_text_quality source_text translated_text source_lang target_lang
             completeness_score fluency_score format_score special_char_score ≤ 100)
    ∧ (∀ msg : String, analyze_text_quality_attempt (Except.error msg) = 75) := by
  constructor
  · intro s t sl tl c f fo sp
    unfold analyze_text_quality analyze_text_quality_score
    constructor
    · exact le_min (by norm_num) (le_trans (by norm_num) (le_max_left 0.0 _))
    · exact le_trans (min_le_left _ _) (by norm_num)
  · intro msg
    norm_num [analyze_text_quality_attempt]

/-- C5 counterexample: on the too-long side the sub-score is
`100 * max_ratio / ratio`, which is inverse-proportional, not linear: with the
default range and the equally spaced ratios 4, 6, 8 the successive score
differences are 50/3 and 25/3, which a linear decay would require to be
equal. -/
theorem claim_C5_counterexample :
    ¬ ( _analyze_length_ratio "a" "aaaa" "xx" "yy"
          - _analyze_length_ratio "a" "aaaaaa" "xx" "yy"
        = _analyze_length_ratio "a" "aaaaaa" "xx" "yy"
          - _analyze_length_ratio "a" "aaaaaaaa" "xx" "yy") := by
  have e1 : _analyze_length_ratio "a" "aaaa" "xx" "yy" = 50 := by
    simp only [ _analyze_length_ratio,
      show List.lookup ("xx", "yy") expected_ratios = none from rfl,
      show "a".length = 1 from rfl, show "aaaa".length = 4 from rfl, Option.getD_none]
    norm_num
    exact ⟨by decide, by decide⟩
  have e2 : _analyze_length_ratio "a" "aaaaaa" "xx" "yy" = 100 / 3 := by
    simp only [ _analyze_length_ratio,
      show List.lookup ("xx", "yy") expected_ratios = none from rfl,
      show "a".length = 1 from rfl, show "aaaaaa".length = 6 from rfl, Option.getD_none]
    norm_num
    exact ⟨by decide, by decide⟩
  have e3 : _analyze_length_ratio "a" "aaaaaaaa" "xx" "yy" = 25 := by
    simp only [ _analyze_length_ratio,
      show List.lookup ("xx", "yy") expected_ratios = none from rfl,
      show "a".length = 1 from rfl, show "aaaaaaaa".length = 8 from rfl, Option.getD_none]
    norm_num
    exact ⟨by decide, by decide⟩
  rw [e1, e2, e3]
  norm_num

/-- C5 (amended): for non-empty source and translated text the length-ratio
sub-score is 100 inside the expected range (default `[0.5, 2.0]` for unknown
pairs); below the range it decays linearly as `100 * ratio / min_ratio`, and
above the range it decays toward 0 inverse-proportionally as
`100 * max_ratio / ratio` (not linearly). -/
theorem claim_C5_length_score_piecewise
    (source_text translated_text source_lang target_lang : String) (rmin rmax : ℚ)
    (hs : source_text ≠ "") (ht : translated_text ≠ "") (hle : rmin ≤ rmax)
    (hb : (List.lookup (source_lang, target_lang) expected_ratios).getD (0.5, 2.0)
            = (rmin, rmax)) :
    ((rmin ≤ (translated_text.length : ℚ) / (source_text.length : ℚ)
        ∧ (translated_text.length : ℚ) / (source_text.length : ℚ) ≤ rmax) →
      _analyze_length_ratio source_text translated_text source_lang target_lang = 100.0)
    ∧ ((translated_text.length : ℚ) / (source_text.length : ℚ) < rmin →
      _analyze_length_ratio source_text translated_text source_lang target_lang
        = max 0.0 (100.0 * (((translated_text.length : ℚ) / (source_text.length : ℚ)) / rmin)))
    ∧ (rmax < (translated_text.length : ℚ) / (source_text.length : ℚ) →
      _analyze_length_ratio source_text translated_text source_lang target_lang
        = max 0.0 (100.0 * (rmax / ((translated_text.length : ℚ) / (source_text.length : ℚ))))) := by
  have hcond : ¬(source_text = "" ∨ translated_text = "") := not_or.mpr ⟨hs, ht⟩
  refine ⟨fun h => ?_, fun h => ?_, fun h => ?_⟩ <;>
    simp only [ _analyze_length_ratio, hb, if_neg hcond]
  · rw [if_pos h]
  · rw [if_neg (fun hc => absurd h (not_lt.mpr hc.1)), if_pos h]
  · rw [if_neg (fun hc => absurd h (not_lt.mpr hc.2)),
      if_neg (not_lt.mpr (le_of_lt (lt_of_le_of_lt hle h)))]

/-- C5 witness: a concrete in-range pair scores 100. -/
theorem claim_C5_witness :
    _analyze_length_ratio "aa" "aaaa" "xx" "yy" = 100.0 :=
  (claim_C5_length_score_piecewise "aa" "aaaa" "xx" "yy" 0.5 2.0 (by decide) (by decide)
    (by norm_num) rfl).1
    (by norm_num [show "aaaa".length = 4 from rfl, show "aa".length = 2 from rfl])

/-- C8 counterexample: the whitespace-only text `" "` is neither empty nor
over-long, yet `translate` rejects it with a validation error (`text.strip()`
is falsy). -/
theorem claim_C8_counterexample :
    isValidationError (TranslationService.translate
      [("openai", fun _ _ _ => Except.ok ⟨"openai", "t", 80⟩)] (fun _ => "en")
      " " "en" "zh" "openai") = true
    ∧ " " ≠ "" ∧ " ".length ≤ MAX_TRANSLATION_LENGTH := by
  decide

/-- C8 (amended): `translate` fails with a validation error iff the text is
empty or whitespace-only, or longer than the configured maximum of 10000
characters; on such inputs the outcome is independent of the configured
adapters and the detector (no provider adapter is invoked), and all other
inputs proceed past validation. -/
theorem claim_C8_validation_iff (engines engines' : List (String × Behavior))
    (detect detect' : String → String) (text source_lang target_lang engine : String) :
    (isValidationError
        (TranslationService.translate engines detect text source_lang target_lang engine) = true
      ↔ (pyStrip text = "" ∨ text.length > MAX_TRANSLATION_LENGTH))
    ∧ ((pyStrip text = "" ∨ text.length > MAX_TRANSLATION_LENGTH) →
        TranslationService.translate engines detect text source_lang target_lang engine
          = TranslationService.translate engines' detect' text source_lang target_lang engine) := by
  unfold TranslationService.translate
  by_cases h1 : pyStrip text = ""
  · simp [h1, isValidationError]
  · by_cases h2 : text.length > MAX_TRANSLATION_LENGTH
    · simp [h1, h2, isValidationError]
    · rw [if_neg h1, if_neg h2, if_neg h1, if_neg h2]
      rcases hlk : List.lookup engine engines with _ | b
      · cases engines with
        | nil => simp [hlk, isValidationError, h1, h2]
        | cons p rest => simp [hlk, isValidationError_liftEngineResult, h1, h2]
      · simp [hlk, isValidationError_liftEngineResult, h1, h2]

/-- C8 witness: the empty text is rejected with a validation error. -/
theorem claim_C8_witness :
    isValidationError (TranslationService.translate [] (fun _ => "en") "" "en" "zh" "openai")
      = true :=
  (claim_C8_validation_iff [] [] (fun _ => "en") (fun _ => "en") "" "en" "zh" "openai").1.mpr
    (Or.inl (by decide))

/-- C9: a `translate` call naming an unconfigured provider falls back to the
first available provider's adapter when one exists; with no provider
configured it fails with the no-provider error; and `compare` over zero
configured providers returns empty `results`, empty `errors` and a null
`best` (the call is total, so it does not raise). -/
theorem claim_C9_fallback :
    (∀ (k : String) (b : Behavior) (rest : List (String × Behavior))
       (detect : String → String) (text source_lang target_lang engine : String),
       pyStrip text ≠ "" → text.length ≤ MAX_TRANSLATION_LENGTH →
       List.lookup engine ((k, b) :: rest) = none →
       TranslationService.translate ((k, b) :: rest) detect text source_lang target_lang engine
         = liftEngineResult
             (b text (if source_lang = "auto" then detect text else source_lang) target_lang))
    ∧ (∀ (detect : String → String) (text source_lang target_lang engine : String),
       pyStrip text ≠ "" → text.length ≤ MAX_TRANSLATION_LENGTH →
       TranslationService.translate [] detect text source_lang target_lang engine
         = Except.error TransError.noProvider)
    ∧ (∀ (detect : String → String) (text source_lang target_lang : String)
         (requested : Option (List String)),
       (compare_translations [] detect text source_lang target_lang requested).results = []
       ∧ (compare_translations [] detect text source_lang target_lang requested).errors = []
       ∧ (compare_translations [] detect text source_lang target_lang requested).best_translation
           = none) := by
  refine ⟨?_, ?_, ?_⟩
  · intro k b rest detect text sl tl eng h1 h2 hlk
    unfold TranslationService.translate
    rw [if_neg h1, if_neg (not_lt.mpr h2), hlk]
  · intro detect text sl tl eng h1 h2
    unfold TranslationService.translate
    rw [if_neg h1, if_neg (not_lt.mpr h2)]
    rfl
  · intro detect text sl tl requested
    cases requested <;>
      refine ⟨?_, ?_, ?_⟩ <;>
        simp [compare_translations, compare_tasks, compare_results, compare_errors,
          _select_best_translation, List.filterMap_eq_nil_iff]

/-- C9 witness: a concrete call naming a missing provider succeeds through the
first configured provider. -/
theorem claim_C9_witness :
    TranslationService.translate [("a", fun _ _ _ => Except.ok ⟨"a", "t", 80⟩)]
      (fun _ => "en") "hi" "en" "zh" "missing" = Except.ok ⟨"a", "t", 80⟩ :=
  claim_C9_fallback.1 "a" _ [] _ "hi" "en" "zh" "missing" (by decide) (by decide) rfl

/-- C2 counterexample: when the single chunk's translation raises, the job
still completes and the reassembled output falls back to the chunk's source
text, but the persisted chunk record's `translated_text` column is never
assigned on the failure path (file_service.py:209-216 only sets `status`), so
it is `None` rather than the chunk's source text as the claim states. -/
theorem claim_C2_counterexample :
    (translate_file_async "Hello" (fun _ _ => Except.error "boom") 1000).chunks.map
        (fun c => c.translated_text) = [none]
    ∧ (translate_file_async "Hello" (fun _ _ => Except.error "boom") 1000).chunks.map
        (fun c => c.translated_text) ≠ [some "Hello"]
    ∧ (translate_file_async "Hello" (fun _ _ => Except.error "boom") 1000).chunks.map
        (fun c => c.status) = ["failed"]
    ∧ (translate_file_async "Hello" (fun _ _ => Except.error "boom") 1000).translation_status
        = "completed"
    ∧ (translate_file_async "Hello" (fun _ _ => Except.error "boom") 1000).translated_content
        = some "Hello" := by
  decide

/-- C2 (amended): for a document whose text fits in one chunk and whose
translation always raises, the job ends `completed` (not `failed`) with
progress 100, the chunk record ends `failed`, the reassembled document output
equals the chunk's own source text, but the chunk record's `translated_text`
stays unset (`None`) rather than receiving the source text. -/
theorem claim_C2_single_chunk_failure (text err : String) (chunk_size : Nat)
    (h : text.length ≤ chunk_size) :
    translate_file_async text (fun _ _ => Except.error err) chunk_size
      = { translation_status := "completed", translation_progress := 100
          translated_content := some text
          chunks := [{ chunk_index := 0, chunk_text := text, translated_text := none
                       status := "failed" }] } := by
  unfold translate_file_async split_text_into_chunks
  rw [if_pos h]
  rfl

/-- C2 witness: the amended statement at a concrete failing document. -/
theorem claim_C2_witness :
    translate_file_async "Hello" (fun _ _ => Except.error "net down") 1000
      = { translation_status := "completed", translation_progress := 100
          translated_content := some "Hello"
          chunks := [{ chunk_index := 0, chunk_text := "Hello", translated_text := none
                       status := "failed" }] } :=
  claim_C2_single_chunk_failure "Hello" "net down" 1000 (by decide)

/-- Every task key produced by the compare task loop is a configured engine id
and a requested id. -/
theorem mem_compare_tasks_key {engines : List (String × Behavior)} {text sl tl : String}
    {engs : List String} {task : String × Except String TransResult}
    (h : task ∈ compare_tasks engines text sl tl engs) :
    task.1 ∈ engines.map Prod.fst ∧ task.1 ∈ engs := by
  obtain ⟨e, he, hsome⟩ := List.mem_filterMap.mp h
  rcases hlk : List.lookup e engines with _ | b <;> rw [hlk] at hsome
  · simp at hsome
  · have htask : task = (e, b text sl tl) := by simpa using hsome.symm
    rw [htask]
    exact ⟨lookup_some_mem_keys hlk, he⟩

/-- A collected result's key is the key of its task. -/
theorem mem_compare_results_key {tasks : List (String × Except String TransResult)}
    {pr : String × TransResult} (h : pr ∈ compare_results tasks) :
    ∃ task ∈ tasks, pr.1 = task.1 := by
  obtain ⟨task, htask, hsel⟩ := List.mem_filterMap.mp h
  refine ⟨task, htask, ?_⟩
  rcases task with ⟨e, x⟩
  cases x with
  | ok r =>
    have h2 : (e, r) = pr := Option.some.inj hsel
    rw [← h2]
  | error m => simp at hsel

/-- A collected error's key is the key of its task. -/
theorem mem_compare_errors_key {tasks : List (String × Except String TransResult)}
    {pr : String × String} (h : pr ∈ compare_errors tasks) :
    ∃ task ∈ tasks, pr.1 = task.1 := by
  obtain ⟨task, htask, hsel⟩ := List.mem_filterMap.mp h
  refine ⟨task, htask, ?_⟩
  rcases task with ⟨e, x⟩
  cases x with
  | ok r => simp at hsel
  | error m =>
    have h2 : (e, m) = pr := Option.some.inj hsel
    rw [← h2]

/-- C10: in `compare`, requested engine ids without a configured adapter are
silently skipped — the key sets of `results` and `errors` are always subsets
of the configured ids, an unconfigured requested id appears in neither map,
and a compare over only unknown ids returns empty `results`, empty `errors`
and a null `best` without raising. -/
theorem claim_C10_compare_skips_unknown (engines : List (String × Behavior))
    (detect : String → String) (text source_lang target_lang : String) (req : List String) :
    ((compare_translations engines detect text source_lang target_lang (some req)).results.map
        Prod.fst ⊆ engines.map Prod.fst)
    ∧ ((compare_translations engines detect text source_lang target_lang (some req)).errors.map
        Prod.fst ⊆ engines.map Prod.fst)
    ∧ (∀ e ∈ req, e ∉ engines.map Prod.fst →
        e ∉ (compare_translations engines detect text source_lang target_lang (some req)).results.map
              Prod.fst
        ∧ e ∉ (compare_translations engines detect text source_lang target_lang (some req)).errors.map
              Prod.fst)
    ∧ ((∀ e ∈ req, e ∉ engines.map Prod.fst) →
        (compare_translations engines detect text source_lang target_lang (some req)).results = []
        ∧ (compare_translations engines detect text source_lang target_lang (some req)).errors = []
        ∧ (compare_translations engines detect text source_lang target_lang (some req)).best_translation
            = none) := by
  have hres : ∀ x ∈ (compare_translations engines detect text source_lang target_lang
      (some req)).results.map Prod.fst, x ∈ engines.map Prod.fst ∧ x ∈ req := by
    intro x hx
    obtain ⟨pr, hpr, rfl⟩ := List.mem_map.mp hx
    obtain ⟨task, htask, hkey⟩ := mem_compare_results_key hpr
    exact hkey ▸ mem_compare_tasks_key htask
  have herr : ∀ x ∈ (compare_translations engines detect text source_lang target_lang
      (some req)).errors.map Prod.fst, x ∈ engines.map Prod.fst ∧ x ∈ req := by
    intro x hx
    obtain ⟨pr, hpr, rfl⟩ := List.mem_map.mp hx
    obtain ⟨task, htask, hkey⟩ := mem_compare_errors_key hpr
    exact hkey ▸ mem_compare_tasks_key htask
  refine ⟨fun x hx => (hres x hx).1, fun x hx => (herr x hx).1, ?_, ?_⟩
  · intro e _ hne
    exact ⟨fun hx => hne (hres e hx).1, fun hx => hne (herr e hx).1⟩
  · intro hall
    have htasks : compare_tasks engines text
        (if source_lang = "auto" then detect text else source_lang) target_lang req = [] := by
      refine List.filterMap_eq_nil_iff.mpr fun e he => ?_
      rw [lookup_eq_none_of_not_mem (hall e he)]
      rfl
    refine ⟨?_, ?_, ?_⟩ <;>
      simp [compare_translations, htasks, compare_results, compare_errors,
        _select_best_translation]

/-- C10 witness: a compare call requesting only an unknown engine id returns
empty results and errors and a null best. -/
theorem claim_C10_witness :
    (compare_translations [("a", fun _ _ _ => Except.ok ⟨"a", "t", 80⟩)] (fun _ => "en")
        "hi" "en" "zh" (some ["zzz"])).results = []
    ∧ (compare_translations [("a", fun _ _ _ => Except.ok ⟨"a", "t", 80⟩)] (fun _ => "en")
        "hi" "en" "zh" (some ["zzz"])).errors = []
    ∧ (compare_translations [("a", fun _ _ _ => Except.ok ⟨"a", "t", 80⟩)] (fun _ => "en")
        "hi" "en" "zh" (some ["zzz"])).best_translation = none :=
  (claim_C10_compare_skips_unknown _ _ "hi" "en" "zh" ["zzz"]).2.2.2
    (by intro e he h; simp at he; rw [he] at h; simp at h)

/-- The task built for one configured engine entry: its id paired with its
adapter's outcome. -/
def applyBehavior (text sl tl : String) (p : String × Behavior) :
    String × Except String TransResult :=
  (p.1, p.2 text sl tl)

/-- With distinct configured engine ids and the default engine selection, the
compare task list is exactly one task per configured engine, in configuration
order. -/
theorem compare_tasks_default (engines : List (String × Behavior)) (text sl tl : String)
    (hnd : (engines.map Prod.fst).Nodup) :
    compare_tasks engines text sl tl (engines.map Prod.fst)
      = engines.map (applyBehavior text sl tl) := by
  induction engines with
  | nil => rfl
  | cons p rest ih =>
    rcases p with ⟨k, b⟩
    have hnod := List.nodup_cons.mp (show (k :: rest.map Prod.fst).Nodup from hnd)
    have htail : ∀ e ∈ rest.map Prod.fst,
        ((List.lookup e ((k, b) :: rest)).map fun bb => (e, bb text sl tl))
          = ((List.lookup e rest).map fun bb => (e, bb text sl tl)) := by
      intro e he
      have hne : (e == k) = false := beq_eq_false_iff_ne.mpr fun hh => hnod.1 (hh ▸ he)
      rw [List.lookup_cons, hne]
    simp only [compare_tasks, List.map_cons, List.filterMap_cons, List.lookup_cons_self,
      Option.map_some']
    rw [List.filterMap_congr htail]
    exact congrArg _ (ih hnod.2)

/-- Tasks whose outcomes all succeeded contribute no error entry. -/
theorem compare_errors_all_ok (tasks : List (String × Except String TransResult))
    (h : ∀ p ∈ tasks, ∃ r : TransResult, p.2 = Except.ok r) :
    compare_errors tasks = [] := by
  refine List.filterMap_eq_nil_iff.mpr fun a ha => ?_
  obtain ⟨r, hr⟩ := h a ha
  rcases a with ⟨e, x⟩
  simp only at hr
  rw [hr]

/-- Tasks whose outcomes all succeeded contribute one result entry each. -/
theorem compare_results_all_ok_length (tasks : List (String × Except String TransResult))
    (h : ∀ p ∈ tasks, ∃ r : TransResult, p.2 = Except.ok r) :
    (compare_results tasks).length = tasks.length := by
  refine length_filterMap_of_all_some fun a ha => ?_
  obtain ⟨r, hr⟩ := h a ha
  rcases a with ⟨e, x⟩
  simp only at hr
  rw [hr]
  rfl

/-- C3 counterexample: two configured providers, one failing and one
succeeding with `quality_score = 0`: `results` has the N−1 = 1 entry and
`errors` the single failure as claimed, but `best` is null, because the
selection loop never picks a result whose score is not strictly positive. -/
theorem claim_C3_counterexample :
    (compare_translations
        [("a", fun _ _ _ => Except.ok ⟨"a", "t", 0⟩), ("b", fun _ _ _ => Except.error "boom")]
        (fun _ => "en") "hi" "en" "zh" none).results.length = 1
    ∧ (compare_translations
        [("a", fun _ _ _ => Except.ok ⟨"a", "t", 0⟩), ("b", fun _ _ _ => Except.error "boom")]
        (fun _ => "en") "hi" "en" "zh" none).errors = [("b", "boom")]
    ∧ (compare_translations
        [("a", fun _ _ _ => Except.ok ⟨"a", "t", 0⟩), ("b", fun _ _ _ => Except.error "boom")]
        (fun _ => "en") "hi" "en" "zh" none).best_translation = none := by
  refine ⟨rfl, rfl, ?_⟩
  show selectBestGo _ none 0 = none
  decide

/-- C3 (amended): for a compare over distinctly named configured providers of
which exactly one always fails and the rest succeed, `results` has N−1
entries, `errors` is exactly the failing provider with its message, and —
provided at least one succeeding result carries a strictly positive
`quality_score` — `best` is non-null; the call itself is total. -/
theorem claim_C3_partial_failure
    (pre post : List (String × Behavior)) (f : String) (fb : Behavior) (msg : String)
    (detect : String → String) (text source_lang target_lang : String)
    (hnd : ((pre ++ (f, fb) :: post).map Prod.fst).Nodup)
    (hsl : source_lang ≠ "auto")
    (hfail : fb text source_lang target_lang = Except.error msg)
    (hok : ∀ p ∈ pre ++ post, ∃ r : TransResult,
        p.2 text source_lang target_lang = Except.ok r)
    (hpos : ∃ p ∈ pre ++ post, ∃ r : TransResult,
        p.2 text source_lang target_lang = Except.ok r ∧ 0 < r.quality_score) :
    (compare_translations (pre ++ (f, fb) :: post) detect text source_lang target_lang
        none).results.length = (pre ++ (f, fb) :: post).length - 1
    ∧ (compare_translations (pre ++ (f, fb) :: post) detect text source_lang target_lang
        none).errors = [(f, msg)]
    ∧ ∃ b : TransResult, (compare_translations (pre ++ (f, fb) :: post) detect text
        source_lang target_lang none).best_translation = some b := by
  have hsl' : (if source_lang = "auto" then detect text else source_lang) = source_lang :=
    if_neg hsl
  have htasks : compare_tasks (pre ++ (f, fb) :: post) text source_lang target_lang
      ((pre ++ (f, fb) :: post).map Prod.fst)
      = (pre ++ (f, fb) :: post).map (applyBehavior text source_lang target_lang) :=
    compare_tasks_default _ _ _ _ hnd
  have hmap : (pre ++ (f, fb) :: post).map (applyBehavior text source_lang target_lang)
      = pre.map (applyBehavior text source_lang target_lang)
        ++ (f, Except.error msg) :: post.map (applyBehavior text source_lang target_lang) := by
    rw [List.map_append, List.map_cons]
    simp only [applyBehavior, hfail]
  have hcomp : compare_translations (pre ++ (f, fb) :: post) detect text source_lang
      target_lang none
      = { source_text := text, source_language := source_lang, target_language := target_lang
          results := compare_results (pre.map (applyBehavior text source_lang target_lang)
            ++ (f, Except.error msg) :: post.map (applyBehavior text source_lang target_lang))
          errors := compare_errors (pre.map (applyBehavior text source_lang target_lang)
            ++ (f, Except.error msg) :: post.map (applyBehavior text source_lang target_lang))
          best_translation := _select_best_translation (compare_results
            (pre.map (applyBehavior text source_lang target_lang)
              ++ (f, Except.error msg)
                :: post.map (applyBehavior text source_lang target_lang))) } := by
    unfold compare_translations
    simp only [hsl', Option.getD_none]
    rw [htasks, hmap]
  have hokpre : ∀ p ∈ pre.map (applyBehavior text source_lang target_lang),
      ∃ r : TransResult, p.2 = Except.ok r := by
    intro a ha
    obtain ⟨p, hp, rfl⟩ := List.mem_map.mp ha
    exact hok p (List.mem_append_left _ hp)
  have hokpost : ∀ p ∈ post.map (applyBehavior text source_lang target_lang),
      ∃ r : TransResult, p.2 = Except.ok r := by
    intro a ha
    obtain ⟨p, hp, rfl⟩ := List.mem_map.mp ha
    exact hok p (List.mem_append_right _ hp)
  have hsplit : compare_results (pre.map (applyBehavior text source_lang target_lang)
      ++ (f, Except.error msg) :: post.map (applyBehavior text source_lang target_lang))
      = compare_results (pre.map (applyBehavior text source_lang target_lang))
        ++ compare_results (post.map (applyBehavior text source_lang target_lang)) := by
    unfold compare_results
    rw [List.filterMap_append, List.filterMap_cons]
  refine ⟨?_, ?_, ?_⟩
  · rw [hcomp]
    show (compare_results _).length = _
    rw [hsplit, List.length_append, compare_results_all_ok_length _ hokpre,
      compare_results_all_ok_length _ hokpost]
    simp [Nat.succ_sub_one]
  · rw [hcomp]
    show compare_errors _ = _
    unfold compare_errors at *
    rw [List.filterMap_append, List.filterMap_cons]
    rw [show (List.filterMap _ (pre.map (applyBehavior text source_lang target_lang)) :
        List (String × String)) = [] from compare_errors_all_ok _ hokpre,
      show (List.filterMap _ (post.map (applyBehavior text source_lang target_lang)) :
        List (String × String)) = [] from compare_errors_all_ok _ hokpost]
    rfl
  · rw [hcomp]
    show ∃ b, _select_best_translation _ = some b
    refine select_best_isSome_of_pos ?_
    obtain ⟨p, hp, r, hr, hrpos⟩ := hpos
    refine ⟨(p.1, r), ?_, hrpos⟩
    rw [hsplit]
    rcases List.mem_append.mp hp with hp | hp
    · refine List.mem_append_left _ ?_
      exact List.mem_filterMap.mpr ⟨applyBehavior text source_lang target_lang p,
        List.mem_map_of_mem _ hp, by simp [applyBehavior, hr]⟩
    · refine List.mem_append_right _ ?_
      exact List.mem_filterMap.mpr ⟨applyBehavior text source_lang target_lang p,
        List.mem_map_of_mem _ hp, by simp [applyBehavior, hr]⟩

/-- C3 witness: two providers, "bad" failing and "good" succeeding with a
positive score: one result, one error, a selected best. -/
theorem claim_C3_witness :
    (compare_translations
        [("good", fun _ _ _ => Except.ok ⟨"good", "t", 90⟩),
         ("bad", fun _ _ _ => Except.error "quota")]
        (fun _ => "en") "hi" "en" "zh" none).results.length = 1
    ∧ (compare_translations
        [("good", fun _ _ _ => Except.ok ⟨"good", "t", 90⟩),
         ("bad", fun _ _ _ => Except.error "quota")]
        (fun _ => "en") "hi" "en" "zh" none).errors = [("bad", "quota")]
    ∧ ∃ b : TransResult, (compare_translations
        [("good", fun _ _ _ => Except.ok ⟨"good", "t", 90⟩),
         ("bad", fun _ _ _ => Except.error "quota")]
        (fun _ => "en") "hi" "en" "zh" none).best_translation = some b := by
  have h := claim_C3_partial_failure
    [("good", fun _ _ _ => Except.ok ⟨"good", "t", 90⟩)] [] "bad"
    (fun _ _ _ => Except.error "quota") "quota" (fun _ => "en") "hi" "en" "zh"
    (by simp) (by decide) rfl
    (by rintro p hp; simp at hp; rw [hp]; exact ⟨⟨"good", "t", 90⟩, rfl⟩)
    ⟨("good", fun _ _ _ => Except.ok ⟨"good", "t", 90⟩), by simp,
      ⟨"good", "t", 90⟩, rfl, by norm_num⟩
  exact h

/-- Two key-sorted permutations of an option list with distinct keys are
equal: sorting by key is canonical. -/
theorem eq_of_perm_sorted_nodup_keys :
    ∀ (l1 l2 : List (String × String)),
    l1.Perm l2 →
    l1.Sorted (fun a b : String × String => a.1 ≤ b.1) →
    l2.Sorted (fun a b : String × String => a.1 ≤ b.1) →
    (l1.map Prod.fst).Nodup → l1 = l2 := by
  intro l1
  induction l1 with
  | nil => exact fun l2 hp _ _ _ => hp.nil_eq
  | cons a t1 ih =>
    intro l2 hp hs1 hs2 hnd
    cases l2 with
    | nil => exact absurd hp.symm.nil_eq (by simp)
    | cons b t2 =>
      by_cases hab : a = b
      · subst hab
        exact congrArg (List.cons a)
          (ih t2 hp.cons_inv (List.sorted_cons.mp hs1).2 (List.sorted_cons.mp hs2).2
            (List.nodup_cons.mp hnd).2)
      · exfalso
        have hat2 : a ∈ t2 := by
          rcases List.mem_cons.mp (hp.subset (List.mem_cons_self a t1)) with h | h
          · exact absurd h hab
          · exact h
        have hbt1 : b ∈ t1 := by
          rcases List.mem_cons.mp (hp.symm.subset (List.mem_cons_self b t2)) with h | h
          · exact absurd h.symm hab
          · exact h
        have hk : a.1 = b.1 :=
          le_antisymm ((List.sorted_cons.mp hs1).1 b hbt1) ((List.sorted_cons.mp hs2).1 a hat2)
        exact (List.nodup_cons.mp hnd).1 (hk ▸ List.mem_map_of_mem Prod.fst hbt1)

/-- C7: two cache-key computations with the same text, languages and provider
whose option sets are equal up to key order produce the same fingerprint
(`json.dumps(kwargs, sort_keys=True)` canonicalizes the option order, and the
hash is a function of the serialized content). -/
theorem claim_C7_cache_key_order_independent (md5hex : String → String)
    (name text source_lang target_lang : String) (kw1 kw2 : List (String × String))
    (hperm : kw1.Perm kw2) (hnd : (kw1.map Prod.fst).Nodup) :
    _get_cache_key md5hex name text source_lang target_lang kw1
      = _get_cache_key md5hex name text source_lang target_lang kw2 := by
  haveI instTot : IsTotal (String × String) (fun a b => a.1 ≤ b.1) :=
    ⟨fun a b => le_total a.1 b.1⟩
  haveI instTrans : IsTrans (String × String) (fun a b => a.1 ≤ b.1) :=
    ⟨fun a b c h1 h2 => le_trans h1 h2⟩
  have hsorteq : kw1.insertionSort (fun a b => a.1 ≤ b.1)
      = kw2.insertionSort (fun a b => a.1 ≤ b.1) := by
    apply eq_of_perm_sorted_nodup_keys
    · exact (List.perm_insertionSort _ kw1).trans
        (hperm.trans (List.perm_insertionSort _ kw2).symm)
    · exact List.sorted_insertionSort _ kw1
    · exact List.sorted_insertionSort _ kw2
    · exact (((List.perm_insertionSort _ kw1).map Prod.fst).nodup_iff).mpr hnd
  unfold _get_cache_key json_dumps_sorted
  rw [hsorteq]

/-- C7 witness: a concrete pair of option sets differing only in order
fingerprint identically. -/
theorem claim_C7_witness :
    _get_cache_key (fun s => s) "openai" "hi" "en" "zh"
        [("model", "\"gpt\""), ("style", "\"formal\"")]
      = _get_cache_key (fun s => s) "openai" "hi" "en" "zh"
        [("style", "\"formal\""), ("model", "\"gpt\"")] :=
  claim_C7_cache_key_order_independent _ "openai" "hi" "en" "zh" _ _ (by decide) (by decide)

/-! ## Chunking round-trip: helper lemmas on whitespace stripping -/

/-- A sentence-terminal character is not whitespace. -/
theorem term_not_space {c : Char} (h : isTermChar c = true) : pyIsSpace c = false := by
  unfold isTermChar at h
  rcases Bool.or_eq_true_iff.mp h with h | h
  rcases Bool.or_eq_true_iff.mp h with h | h
  rcases Bool.or_eq_true_iff.mp h with h | h
  rcases Bool.or_eq_true_iff.mp h with h | h
  rcases Bool.or_eq_true_iff.mp h with h | h
  all_goals rw [eq_of_beq h]; rfl

/-- Leading strip of a list starting with non-whitespace. -/
theorem dlw_cons_nonws {c : Char} {t : List Char} (h : pyIsSpace c = false) :
    dropLeadingWs (c :: t) = c :: t := by
  simp [dropLeadingWs, List.dropWhile_cons, h]

/-- Leading strip of a list starting with whitespace. -/
theorem dlw_cons_ws {c : Char} {t : List Char} (h : pyIsSpace c = true) :
    dropLeadingWs (c :: t) = dropLeadingWs t := by
  simp [dropLeadingWs, List.dropWhile_cons, h]

/-- Leading strip over an append whose left part keeps characters. -/
theorem dlw_append_of_ne_nil {x y : List Char} (h : dropLeadingWs x ≠ []) :
    dropLeadingWs (x ++ y) = dropLeadingWs x ++ y := by
  unfold dropLeadingWs at *
  rw [List.dropWhile_append, if_neg (by simpa [List.isEmpty_iff] using h)]

/-- Leading strip over an append whose left part is all whitespace. -/
theorem dlw_append_of_nil {x y : List Char} (h : dropLeadingWs x = []) :
    dropLeadingWs (x ++ y) = dropLeadingWs y := by
  unfold dropLeadingWs at *
  rw [List.dropWhile_append, if_pos (by simpa [List.isEmpty_iff] using h)]

/-- The leading strip is empty exactly on all-whitespace lists. -/
theorem dlw_eq_nil_iff {l : List Char} :
    dropLeadingWs l = [] ↔ ∀ c ∈ l, pyIsSpace c = true := by
  simp [dropLeadingWs, List.dropWhile_eq_nil_iff]

/-- The leading strip is idempotent. -/
theorem dlw_idem (l : List Char) : dropLeadingWs (dropLeadingWs l) = dropLeadingWs l :=
  List.dropWhile_idempotent pyIsSpace l

/-- The head of a non-trivial leading strip is not whitespace. -/
theorem dlw_head_not_ws : ∀ {l : List Char} {c : Char} {t : List Char},
    dropLeadingWs l = c :: t → pyIsSpace c = false := by
  intro l
  induction l with
  | nil => intro c t h; simp [dropLeadingWs] at h
  | cons a l' ih =>
    intro c t h
    cases ha : pyIsSpace a with
    | true => exact ih (by rwa [dlw_cons_ws ha] at h)
    | false =>
      rw [dlw_cons_nonws ha] at h
      cases h
      exact ha

/-- The trailing strip, unfolded to its reversed form. -/
theorem dtw_eq_reverse (l : List Char) :
    dropTrailingWs l = (l.reverse.dropWhile pyIsSpace).reverse := rfl

/-- A list splits into its trailing strip and an all-whitespace tail. -/
theorem eq_dtw_append (l : List Char) :
    l = dropTrailingWs l ++ (l.reverse.takeWhile pyIsSpace).reverse := by
  rw [dtw_eq_reverse]
  calc l = l.reverse.reverse := (List.reverse_reverse l).symm
  _ = (l.reverse.takeWhile pyIsSpace ++ l.reverse.dropWhile pyIsSpace).reverse := by
      rw [List.takeWhile_append_dropWhile]
  _ = (l.reverse.dropWhile pyIsSpace).reverse ++ (l.reverse.takeWhile pyIsSpace).reverse :=
      List.reverse_append _ _

/-- The trailing strip is empty exactly on all-whitespace lists. -/
theorem dtw_eq_nil_iff {l : List Char} :
    dropTrailingWs l = [] ↔ ∀ c ∈ l, pyIsSpace c = true :=
  List.rdropWhile_eq_nil_iff

/-- Trailing strip of a cons. -/
theorem dtw_cons (c : Char) (t : List Char) :
    dropTrailingWs (c :: t)
      = if dropTrailingWs t = [] then (if pyIsSpace c then [] else [c])
        else c :: dropTrailingWs t := by
  rw [dtw_eq_reverse, List.reverse_cons, List.dropWhile_append]
  by_cases h : dropTrailingWs t = []
  · have h' : (t.reverse.dropWhile pyIsSpace).isEmpty = true := by
      rw [dtw_eq_reverse] at h
      simpa [List.isEmpty_iff] using congrArg List.reverse h
    rw [if_pos h', if_pos h]
    by_cases hc : pyIsSpace c
    · simp [List.dropWhile_cons, hc]
    · simp [List.dropWhile_cons, hc]
  · have h' : ¬(t.reverse.dropWhile pyIsSpace).isEmpty = true := by
      rw [dtw_eq_reverse] at h
      simp only [List.isEmpty_iff]
      intro hx
      exact h (by simp [hx])
    rw [if_neg h', if_neg h, List.reverse_append, dtw_eq_reverse]
    rfl

/-- Trailing strip over an append whose right part keeps characters. -/
theorem dtw_append_of_ne_nil {x y : List Char} (h : dropTrailingWs y ≠ []) :
    dropTrailingWs (x ++ y) = x ++ dropTrailingWs y := by
  have h' : ¬(y.reverse.dropWhile pyIsSpace).isEmpty = true := by
    intro hx
    apply h
    rw [dtw_eq_reverse, List.isEmpty_iff.mp hx]
    rfl
  rw [dtw_eq_reverse, List.reverse_append, List.dropWhile_append, if_neg h',
    List.reverse_append, List.reverse_reverse, ← dtw_eq_reverse]

/-- Leading and trailing strips commute. -/
theorem dlw_dtw_comm (l : List Char) :
    dropTrailingWs (dropLeadingWs l) = dropLeadingWs (dropTrailingWs l) := by
  induction l with
  | nil => rfl
  | cons c t ih =>
    cases hc : pyIsSpace c with
    | true =>
      rw [dlw_cons_ws hc, ih, dtw_cons]
      by_cases ht : dropTrailingWs t = []
      · rw [if_pos ht, if_pos hc, ht]
      · rw [if_neg ht, dlw_cons_ws hc]
    | false =>
      rw [dlw_cons_nonws hc, dtw_cons]
      by_cases ht : dropTrailingWs t = []
      · rw [if_pos ht, if_neg (by simp [hc]), dlw_cons_nonws hc]
      · rw [if_neg ht, dlw_cons_nonws hc]

/-- The full strip is empty exactly on all-whitespace lists. -/
theorem strip_eq_nil_iff {l : List Char} :
    stripChars l = [] ↔ ∀ c ∈ l, pyIsSpace c = true := by
  constructor
  · intro h c hc
    have hdt : ∀ c ∈ dropTrailingWs l, pyIsSpace c = true := dlw_eq_nil_iff.mp h
    rcases List.mem_append.mp ((eq_dtw_append l) ▸ hc) with hm | hm
    · exact hdt c hm
    · exact List.mem_takeWhile_imp (List.mem_reverse.mp hm)
  · intro h
    exact dlw_eq_nil_iff.mpr
      fun c hc => h c ((List.rdropWhile_prefix pyIsSpace l).subset hc)

/-- Stripping is idempotent. -/
theorem strip_idem (l : List Char) : stripChars (stripChars l) = stripChars l := by
  show dropLeadingWs (dropTrailingWs (dropLeadingWs (dropTrailingWs l)))
      = dropLeadingWs (dropTrailingWs l)
  rw [dlw_dtw_comm, dlw_idem,
    show dropTrailingWs (dropTrailingWs l) = dropTrailingWs l from
      List.rdropWhile_idempotent pyIsSpace l]

/-- Stripping after a leading strip is just stripping. -/
theorem strip_dlw (l : List Char) : stripChars (dropLeadingWs l) = stripChars l := by
  show dropLeadingWs (dropTrailingWs (dropLeadingWs l)) = dropLeadingWs (dropTrailingWs l)
  rw [dlw_dtw_comm, dlw_idem]

/-- Characters of the strip are characters of the list. -/
theorem mem_of_mem_strip {l : List Char} {c : Char} (h : c ∈ stripChars l) : c ∈ l :=
  (List.rdropWhile_prefix pyIsSpace l).subset ((List.dropWhile_sublist pyIsSpace).subset h)

/-! ## Chunking round-trip: the `". "` join and the sentence splitter -/

/-- The `". ".join`-style concatenation at character level (the join rule used
by the chunk accumulator, `current_chunk += ". " + sentence`). -/
def joinDot (ls : List (List Char)) : List Char := List.intercalate ['.', ' '] ls

/-- The same join rule on `String` chunks. -/
def joinChunks (chunks : List String) : String :=
  String.mk (joinDot (chunks.map String.toList))

/-- The stripped, non-blank sentence sequence of a text: what remains of its
sentences after stripping whitespace and dropping blanks. -/
def sentencePieces (l : List Char) : List (List Char) :=
  ((splitSentences l).map stripChars).filter (fun x => !x.isEmpty)

/-- `sentencePieces` on `String`s. -/
def sentence_sequence (s : String) : List String :=
  (sentencePieces s.toList).map String.mk

theorem joinDot_single (s : List Char) : joinDot [s] = s := by
  simp [joinDot, List.intercalate]

theorem joinDot_cons2 (s s' : List Char) (ss : List (List Char)) :
    joinDot (s :: s' :: ss) = s ++ '.' :: ' ' :: joinDot (s' :: ss) := by
  simp [joinDot, List.intercalate]

theorem joinDot_concat (xs : List (List Char)) (s : List Char) (h : xs ≠ []) :
    joinDot (xs ++ [s]) = joinDot xs ++ '.' :: ' ' :: s := by
  induction xs with
  | nil => exact absurd rfl h
  | cons x xs' ih =>
    cases xs' with
    | nil => rw [List.cons_append, List.nil_append, joinDot_cons2, joinDot_single, joinDot_single]
    | cons y ys =>
      have ih' := ih (by simp)
      rw [List.cons_append] at ih'
      rw [List.cons_append, List.cons_append, joinDot_cons2, ih', joinDot_cons2]
      simp [List.append_assoc]

theorem joinDot_ne_nil {x : List Char} (xs : List (List Char)) (hx : x ≠ []) :
    joinDot (x :: xs) ≠ [] := by
  cases xs with
  | nil => rw [joinDot_single]; exact hx
  | cons y ys =>
    rw [joinDot_cons2]
    intro h
    exact hx (List.append_eq_nil.mp h).1

theorem mem_joinDot_head {c : Char} {x : List Char} (xs : List (List Char)) (hc : c ∈ x) :
    c ∈ joinDot (x :: xs) := by
  cases xs with
  | nil => rw [joinDot_single]; exact hc
  | cons y ys => rw [joinDot_cons2]; exact List.mem_append_left _ hc

/-- The sentences produced by the splitter contain no terminal characters. -/
theorem splitAux_no_term : ∀ (l acc : List Char), (∀ c ∈ acc, isTermChar c = false) →
    ∀ s ∈ splitSentencesAux l acc, ∀ c ∈ s, isTermChar c = false := by
  intro l acc
  induction l, acc using splitSentencesAux.induct with
  | case1 acc =>
    intro hacc s hs c hc
    simp only [splitSentencesAux, List.mem_singleton] at hs
    exact hacc c (List.mem_reverse.mp (hs ▸ hc))
  | case2 c0 rest acc hterm ih =>
    intro hacc s hs c hc
    simp only [splitSentencesAux, if_pos hterm, List.mem_cons] at hs
    rcases hs with hs | hs
    · exact hacc c (List.mem_reverse.mp (hs ▸ hc))
    · exact ih (by intro c' hc'; simp at hc') s hs c hc
  | case3 c0 rest acc hterm ih =>
    intro hacc s hs c hc
    simp only [splitSentencesAux, if_neg hterm] at hs
    refine ih ?_ s hs c hc
    intro c' hc'
    rcases List.mem_cons.mp hc' with h | h
    · subst h
      cases h' : isTermChar c' with
      | true => exact absurd h' hterm
      | false => rfl
    · exact hacc c' h

/-- Splitting a terminal-free text yields a single sentence. -/
theorem splitAux_of_no_term : ∀ (a acc : List Char), (∀ c ∈ a, isTermChar c = false) →
    splitSentencesAux a acc = [acc.reverse ++ a] := by
  intro a
  induction a with
  | nil => intro acc _; simp [splitSentencesAux]
  | cons c t ih =>
    intro acc h
    have hc : isTermChar c = false := h c (List.mem_cons_self c t)
    simp only [splitSentencesAux, hc, Bool.false_eq_true, if_false]
    rw [ih (c :: acc) fun c' hc' => h c' (List.mem_cons_of_mem c hc')]
    simp

/-- Splitting across a terminal character: the part before the terminal is
split on its own (the terminal flushes the current sentence exactly as the end
of input would), and the remainder continues after the post-terminal
whitespace is consumed. -/
theorem splitAux_append_term : ∀ (x acc : List Char) (tc : Char) (rest : List Char),
    isTermChar tc = true →
    splitSentencesAux (x ++ tc :: rest) acc
      = splitSentencesAux x acc ++ splitSentencesAux (rest.dropWhile pyIsSpace) [] := by
  intro x acc
  induction x, acc using splitSentencesAux.induct with
  | case1 acc =>
    intro tc rest htc
    rw [List.nil_append]
    simp only [splitSentencesAux, if_pos htc]
    rfl
  | case2 c0 rest' acc hterm ih =>
    intro tc rest htc
    rw [List.cons_append]
    simp only [splitSentencesAux, if_pos hterm]
    by_cases hws : rest'.dropWhile pyIsSpace = []
    · have h1 : (rest' ++ tc :: rest).dropWhile pyIsSpace = tc :: rest := by
        rw [show (rest' ++ tc :: rest).dropWhile pyIsSpace
            = dropLeadingWs (rest' ++ tc :: rest) from rfl,
          dlw_append_of_nil hws, dlw_cons_nonws (term_not_space htc)]
      rw [h1, hws]
      simp only [splitSentencesAux, if_pos htc]
      rfl
    · have h1 : (rest' ++ tc :: rest).dropWhile pyIsSpace
          = rest'.dropWhile pyIsSpace ++ tc :: rest := dlw_append_of_ne_nil hws
      rw [h1, ih tc rest htc]
      rfl
  | case3 c0 rest' acc hterm ih =>
    intro tc rest htc
    rw [List.cons_append]
    simp only [splitSentencesAux, if_neg hterm]
    exact ih tc rest htc

theorem joinDot_nil : joinDot [] = [] := rfl

/-- The join of a non-empty block of strip-non-empty sentences does not strip
to nothing. -/
theorem strip_joinDot_ne_nil {b : List (List Char)} (hb : b ≠ [])
    (hgood : ∀ s ∈ b, (∀ c ∈ s, isTermChar c = false) ∧ stripChars s ≠ []) :
    stripChars (joinDot b) ≠ [] := by
  rcases b with _ | ⟨s0, b'⟩
  · exact absurd rfl hb
  · intro hx
    apply (hgood s0 (by simp)).2
    apply strip_eq_nil_iff.mpr
    intro c hc
    exact strip_eq_nil_iff.mp hx c (mem_joinDot_head b' hc)

/-- Splitting a stripped `". "`-join of terminal-free, strip-non-empty
sentences recovers the sentences up to stripping. -/
theorem split_strip_joinDot : ∀ (b : List (List Char)), b ≠ [] →
    (∀ s ∈ b, (∀ c ∈ s, isTermChar c = false) ∧ stripChars s ≠ []) →
    (splitSentences (stripChars (joinDot b))).map stripChars = b.map stripChars := by
  intro b
  induction b with
  | nil => intro h _; exact absurd rfl h
  | cons s b' ih =>
    intro _ hgood
    cases b' with
    | nil =>
      rw [joinDot_single]
      have hs := hgood s (List.mem_cons_self s [])
      have hterm : ∀ c ∈ stripChars s, isTermChar c = false :=
        fun c hc => hs.1 c (mem_of_mem_strip hc)
      rw [show splitSentences (stripChars s) = [stripChars s] from
        splitAux_of_no_term _ [] hterm]
      simp [strip_idem]
    | cons s1 b'' =>
      have hs := hgood s (by simp)
      have hs1 := hgood s1 (by simp)
      have hdlws : dropLeadingWs s ≠ [] := by
        intro hx
        exact hs.2 (strip_eq_nil_iff.mpr (dlw_eq_nil_iff.mp hx))
      have hdtwJ : dropTrailingWs (joinDot (s1 :: b'')) ≠ [] := by
        intro hx
        apply hs1.2
        apply strip_eq_nil_iff.mpr
        intro c hc
        exact dtw_eq_nil_iff.mp hx c (mem_joinDot_head b'' hc)
      have hA : stripChars (joinDot (s :: s1 :: b''))
          = dropLeadingWs s ++ '.' :: ' ' :: dropTrailingWs (joinDot (s1 :: b'')) := by
        rw [joinDot_cons2]
        show dropLeadingWs (dropTrailingWs (s ++ '.' :: ' ' :: joinDot (s1 :: b''))) = _
        rw [show s ++ '.' :: ' ' :: joinDot (s1 :: b'')
            = (s ++ ['.', ' ']) ++ joinDot (s1 :: b'') by simp,
          dtw_append_of_ne_nil hdtwJ,
          show (s ++ ['.', ' ']) ++ dropTrailingWs (joinDot (s1 :: b''))
            = s ++ '.' :: ' ' :: dropTrailingWs (joinDot (s1 :: b'')) by simp,
          dlw_append_of_ne_nil hdlws]
      have hterm : ∀ c ∈ dropLeadingWs s, isTermChar c = false :=
        fun c hc => hs.1 c ((List.dropWhile_sublist pyIsSpace).subset hc)
      have hB : splitSentences (stripChars (joinDot (s :: s1 :: b'')))
          = dropLeadingWs s :: splitSentences (stripChars (joinDot (s1 :: b''))) := by
        rw [hA]
        show splitSentencesAux
          (dropLeadingWs s ++ '.' :: (' ' :: dropTrailingWs (joinDot (s1 :: b'')))) [] = _
        rw [splitAux_append_term (dropLeadingWs s) [] '.'
            (' ' :: dropTrailingWs (joinDot (s1 :: b''))) rfl,
          splitAux_of_no_term _ [] hterm,
          show (' ' :: dropTrailingWs (joinDot (s1 :: b''))).dropWhile pyIsSpace
            = dropLeadingWs (dropTrailingWs (joinDot (s1 :: b''))) from dlw_cons_ws rfl]
        rfl
      rw [hB, List.map_cons, ih (by simp) fun s' hs' => hgood s' (List.mem_cons_of_mem s hs'),
        strip_dlw]
      rfl

/-- The chunk accumulation loop produces exactly the stripped `". "`-joins of
a greedy partition (the blocks) of the non-blank sentences. -/
theorem buildChunks_blocks : ∀ (sents : List (List Char)) (chunk_size : Nat)
    (cur : List (List Char)),
    (∀ s ∈ sents, ∀ c ∈ s, isTermChar c = false) →
    (∀ s ∈ cur, (∀ c ∈ s, isTermChar c = false) ∧ stripChars s ≠ []) →
    ∃ blocks : List (List (List Char)),
      buildChunks chunk_size sents (joinDot cur)
        = blocks.map (fun bb => stripChars (joinDot bb))
      ∧ blocks.flatten = cur ++ sents.filter (fun s => !(stripChars s).isEmpty)
      ∧ ∀ bb ∈ blocks, bb ≠ []
          ∧ ∀ s ∈ bb, (∀ c ∈ s, isTermChar c = false) ∧ stripChars s ≠ [] := by
  intro sents
  induction sents with
  | nil =>
    intro chunk_size cur _ hcur
    by_cases hc : cur = []
    · subst hc
      exact ⟨[], by simp [buildChunks, joinDot_nil, show stripChars ([] : List Char) = []
        from rfl], by simp, by simp⟩
    · refine ⟨[cur], ?_, by simp,
        by intro bb hbb; rw [List.mem_singleton.mp hbb]; exact ⟨hc, hcur⟩⟩
      simp only [buildChunks, List.map_cons, List.map_nil]
      rw [if_neg (strip_joinDot_ne_nil hc hcur)]
  | cons s rest ih =>
    intro chunk_size cur hsents hcur
    have hsrest : ∀ s' ∈ rest, ∀ c ∈ s', isTermChar c = false :=
      fun s' hs' => hsents s' (List.mem_cons_of_mem s hs')
    simp only [buildChunks]
    by_cases hblank : stripChars s = []
    · rw [if_pos hblank]
      obtain ⟨blocks, h1, h2, h3⟩ := ih chunk_size cur hsrest hcur
      refine ⟨blocks, h1, ?_, h3⟩
      rw [h2, List.filter_cons, if_neg (by simp [hblank])]
    · have hsgood : (∀ c ∈ s, isTermChar c = false) ∧ stripChars s ≠ [] :=
        ⟨hsents s (List.mem_cons_self s rest), hblank⟩
      have hone : ∀ s' ∈ [s], (∀ c ∈ s', isTermChar c = false) ∧ stripChars s' ≠ [] := by
        intro s' hs'
        rw [List.mem_singleton.mp hs']
        exact hsgood
      rw [if_neg hblank]
      by_cases hcond : (joinDot cur).length + s.length > chunk_size ∧ joinDot cur ≠ []
      · rw [if_pos hcond]
        have hcurne : cur ≠ [] := by rintro rfl; exact hcond.2 rfl
        obtain ⟨blocks, h1, h2, h3⟩ := ih chunk_size [s] hsrest hone
        rw [joinDot_single] at h1
        refine ⟨cur :: blocks, ?_, ?_, ?_⟩
        · rw [List.map_cons]
          exact congrArg _ h1
        · rw [List.flatten_cons, h2, List.filter_cons, if_pos (by simp [hblank])]
          simp
        · intro bb hbb
          rcases List.mem_cons.mp hbb with hbb | hbb
          · exact hbb ▸ ⟨hcurne, hcur⟩
          · exact h3 bb hbb
      · rw [if_neg hcond]
        by_cases hc : cur = []
        · subst hc
          rw [joinDot_nil, if_pos rfl]
          obtain ⟨blocks, h1, h2, h3⟩ := ih chunk_size [s] hsrest hone
          rw [joinDot_single] at h1
          refine ⟨blocks, h1, ?_, h3⟩
          rw [h2, List.filter_cons, if_pos (by simp [hblank])]
          simp
        · have hjne : joinDot cur ≠ [] := by
            rcases cur with _ | ⟨c0, cur'⟩
            · exact absurd rfl hc
            · refine joinDot_ne_nil cur' fun h0 => ?_
              exact (hcur c0 (by simp)).2 (by rw [h0]; rfl)
          rw [if_neg hjne,
            show joinDot cur ++ '.' :: ' ' :: s = joinDot (cur ++ [s]) from
              (joinDot_concat cur s hc).symm]
          have hcur' : ∀ s' ∈ cur ++ [s],
              (∀ c ∈ s', isTermChar c = false) ∧ stripChars s' ≠ [] := by
            intro s' hs'
            rcases List.mem_append.mp hs' with h | h
            · exact hcur s' h
            · rw [List.mem_singleton.mp h]
              exact hsgood
          obtain ⟨blocks, h1, h2, h3⟩ := ih chunk_size (cur ++ [s]) hsrest hcur'
          refine ⟨blocks, h1, ?_, h3⟩
          rw [h2, List.filter_cons, if_pos (by simp [hblank])]
          simp

/-- Stripped lists are fixed by the leading strip. -/
theorem dlw_strip (l : List Char) : dropLeadingWs (stripChars l) = stripChars l :=
  dlw_idem (dropTrailingWs l)

/-- A join whose first part is non-empty and strip-fixed is fixed by the
leading strip. -/
theorem dlw_joinDot_fixed {x : List Char} (xs : List (List Char))
    (hx : dropLeadingWs x = x) (hne : x ≠ []) :
    dropLeadingWs (joinDot (x :: xs)) = joinDot (x :: xs) := by
  cases xs with
  | nil => rw [joinDot_single]; exact hx
  | cons y ys =>
    rw [joinDot_cons2, dlw_append_of_ne_nil (by rw [hx]; exact hne), hx]

/-- Joining the stripped chunk texts of a block partition and re-splitting
recovers exactly the stripped sentences of all blocks, in order. -/
theorem sentencePieces_chunks : ∀ (blocks : List (List (List Char))),
    (∀ bb ∈ blocks, bb ≠ []
      ∧ ∀ s ∈ bb, (∀ c ∈ s, isTermChar c = false) ∧ stripChars s ≠ []) →
    sentencePieces (joinDot (blocks.map fun bb => stripChars (joinDot bb)))
      = blocks.flatten.map stripChars := by
  intro blocks
  induction blocks with
  | nil =>
    intro _
    simp [sentencePieces, joinDot_nil, splitSentences, splitSentencesAux,
      show stripChars ([] : List Char) = [] from rfl]
  | cons b bs ih =>
    intro hgood
    have hb := hgood b (by simp)
    have hbs : ∀ bb ∈ bs, bb ≠ []
        ∧ ∀ s ∈ bb, (∀ c ∈ s, isTermChar c = false) ∧ stripChars s ≠ [] :=
      fun bb hbb => hgood bb (List.mem_cons_of_mem b hbb)
    have hchunk : ((splitSentences (stripChars (joinDot b))).map stripChars).filter
        (fun x => !x.isEmpty) = b.map stripChars := by
      rw [split_strip_joinDot b hb.1 hb.2]
      refine List.filter_eq_self.mpr ?_
      intro x hx
      obtain ⟨s, hsb, rfl⟩ := List.mem_map.mp hx
      have hne := (hb.2 s hsb).2
      cases hxe : (stripChars s).isEmpty with
      | false => rfl
      | true => exact absurd (List.isEmpty_iff.mp hxe) hne
    cases bs with
    | nil =>
      rw [List.map_cons, List.map_nil, joinDot_single]
      show ((splitSentences (stripChars (joinDot b))).map stripChars).filter
        (fun x => !x.isEmpty) = _
      rw [hchunk]
      simp
    | cons b1 bs' =>
      have hb1 := hgood b1 (by simp)
      have hd1ne : stripChars (joinDot b1) ≠ [] := strip_joinDot_ne_nil hb1.1 hb1.2
      have hfix : dropLeadingWs (joinDot (stripChars (joinDot b1)
            :: bs'.map fun bb => stripChars (joinDot bb)))
          = joinDot (stripChars (joinDot b1) :: bs'.map fun bb => stripChars (joinDot bb)) :=
        dlw_joinDot_fixed _ (dlw_strip _) hd1ne
      have ih' := ih hbs
      rw [List.map_cons] at ih'
      rw [List.map_cons, List.map_cons, joinDot_cons2]
      show ((splitSentencesAux (stripChars (joinDot b) ++ '.' :: (' '
          :: joinDot (stripChars (joinDot b1) :: bs'.map fun bb => stripChars (joinDot bb))))
          []).map stripChars).filter (fun x => !x.isEmpty) = _
      rw [splitAux_append_term _ [] '.' _ rfl,
        show (' ' :: joinDot (stripChars (joinDot b1)
            :: bs'.map fun bb => stripChars (joinDot bb))).dropWhile pyIsSpace
          = dropLeadingWs (joinDot (stripChars (joinDot b1)
            :: bs'.map fun bb => stripChars (joinDot bb))) from dlw_cons_ws rfl,
        hfix, List.map_append, List.filter_append]
      rw [show (splitSentencesAux (stripChars (joinDot b)) []).map stripChars
          = (splitSentences (stripChars (joinDot b))).map stripChars from rfl]
      rw [hchunk, List.flatten_cons, List.map_append]
      exact congrArg _ ih'

/-- C6: chunk splitting is a pure, deterministic function of the text and
budget; a text within the budget becomes the single chunk `[text]`; and
joining the chunks with the accumulator's own `". "` rule yields a text whose
stripped non-blank sentence sequence is exactly that of the original text
(the round-trip preserves the sentence sequence up to whitespace stripping). -/
theorem claim_C6_chunking (text : String) (chunk_size : Nat) :
    split_text_into_chunks text chunk_size = split_text_into_chunks text chunk_size
    ∧ (text.length ≤ chunk_size → split_text_into_chunks text chunk_size = [text])
    ∧ sentence_sequence (joinChunks (split_text_into_chunks text chunk_size))
        = sentence_sequence text := by
  refine ⟨rfl, ?_, ?_⟩
  · intro h
    unfold split_text_into_chunks
    rw [if_pos h]
  · by_cases h : text.length ≤ chunk_size
    · rw [show split_text_into_chunks text chunk_size = [text] from by
        unfold split_text_into_chunks; rw [if_pos h]]
      have hj : joinChunks [text] = text := by
        apply String.ext
        show joinDot [text.toList] = text.data
        rw [joinDot_single]
        rfl
      rw [hj]
    · unfold split_text_into_chunks
      rw [if_neg h]
      obtain ⟨blocks, h1, h2, h3⟩ := buildChunks_blocks (splitSentences text.toList)
        chunk_size [] (fun s hs c hc => splitAux_no_term text.toList [] (by simp) s hs c hc)
        (by simp)
      rw [joinDot_nil] at h1
      rw [h1]
      have htl : (joinChunks ((blocks.map fun bb => stripChars (joinDot bb)).map
          String.mk)).toList = joinDot (blocks.map fun bb => stripChars (joinDot bb)) := by
        show joinDot (((blocks.map fun bb => stripChars (joinDot bb)).map String.mk).map
          String.toList) = _
        rw [List.map_map]
        congr 1
        rw [show String.toList ∘ String.mk = id from funext fun l => rfl, List.map_id]
      unfold sentence_sequence
      rw [htl, sentencePieces_chunks blocks h3, h2]
      congr 1
      rw [List.nil_append]
      show _ = ((splitSentences text.toList).map stripChars).filter (fun x => !x.isEmpty)
      rw [List.filter_map]
      rfl

/-- C6 witness: a concrete short text is returned as a single chunk. -/
theorem claim_C6_witness :
    split_text_into_chunks "Hello world. Bye." 1000 = ["Hello world. Bye."] :=
  (claim_C6_chunking "Hello world. Bye." 1000).2.1 (by decide)

end TransPlatform
